import Mathlib

/-!
Verification of `src/CPP/lists/LROrderedLinkedList.h` (Left-Right ordered linked list,
ConcurrencyFreaks).  The file contains

* a sequential shallow embedding of the container: the class state becomes `LRState`,
  each member function becomes a Lean function on `LRState`; the spin loops of
  `toggleVersionAndWait` become an `Option` result (`none` = the call would spin forever,
  which in a single-threaded execution happens exactly when a scanned counter is nonzero,
  since no other thread can change it);
* a small-step interleaved transition system (`LRStep`) for the concurrency claims, with
  one constructor per atomic access of the source code, and an inductive invariant proof;
* the theorems for the individual claims.

Conventions of the embedding:
* C++ `int`/`size_t` values that stay small (version index, left/right selector) take
  values 0/1 in the source and are modelled as `Bool` (`false` = 0 = `READS_ON_LEFT`,
  `true` = 1 = `READS_ON_RIGHT`); `1 - x` / `(x+1) % 2` becomes `!x`.
* the template parameter `T` is instantiated with `ℤ` (any totally ordered type with
  decidable equality would do);
* the counter arrays `_readersVersion0/1` become functions `ℕ → ℤ`;
* the source's constructor reads `std::thread::hardware_concurrency()`; that runtime
  value is the parameter `hwCores` of `mkLR`.
* the header defines macros `LROLL_NUMBER_OF_CORES`/`LROLL_COUNTERS_RATIO` but then
  spells them `LROLLS_NUMBER_OF_CORES`/`LROLLS_COUNTERS_RATIO` at the use sites; we model
  the evidently intended values (32, and 3*64/sizeof(int) = 48).
-/

/-- `LROLL_NUMBER_OF_CORES` (fallback when `hardware_concurrency()` returns 0). -/
def lrollNumberOfCores : ℕ := 32

/-- Value intended by `LROLL_COUNTERS_RATIO = LROLL_HASH_RATIO*LROLL_CACHE_LINE/sizeof(int)`,
i.e. `3*64/4 = 48`: the stride, in `int` slots, between used counters. -/
def lrollCountersRatio : ℕ := 3 * 64 / 4

/-- Modelled from the spec: `LinkedListSet.h` is included by the source but is not under
`src/`.  Per §4.1/§6 of the spec it is a single-threaded sorted container whose `add(key)`
"inserts key, returns false without mutation if key already present (no duplicates), true
otherwise".  We model it as a sorted `List ℤ` with ordered insertion. -/
def llAdd (l : List ℤ) (k : ℤ) : Bool × List ℤ :=
  if k ∈ l then (false, l) else (true, List.orderedInsert (· ≤ ·) k l)

/-- Modelled from the spec: `LinkedListSet::remove(key)` "deletes key, returns false
without mutation if absent". -/
def llRemove (l : List ℤ) (k : ℤ) : Bool × List ℤ :=
  if k ∈ l then (true, l.erase k) else (false, l)

/-- Modelled from the spec: `LinkedListSet::contains(key)` is a membership test. -/
def llContains (l : List ℤ) (k : ℤ) : Bool :=
  decide (k ∈ l)

/-- The data members of `LROrderedLinkedList` (`LinkedListSet _set1, _set2;
std::atomic<int> _leftRight, _versionIndex; std::atomic<int> *_readersVersion0/1;
int _numCores, _readersLength`).  The `_writersMutex` needs no sequential model. -/
structure LRState where
  set1 : List ℤ
  set2 : List ℤ
  /-- `false` = `READS_ON_LEFT` (0), `true` = `READS_ON_RIGHT` (1). -/
  leftRight : Bool
  /-- `false` = 0, `true` = 1. -/
  versionIndex : Bool
  readersVersion0 : ℕ → ℤ
  readersVersion1 : ℕ → ℤ
  numCores : ℕ
  readersLength : ℕ

/-- The index sequence `tid = 0; tid < len; tid += ratio` used both by the constructor's
initialisation loop and by `readIndicatorIsEmpty`'s scan loop: the multiples of `ratio`
below `len`. -/
def strideSlots (len ratio : ℕ) : List ℕ :=
  (List.range len).filter (fun tid => tid % ratio == 0)

/-- The constructor `LROrderedLinkedList()`: empty mirrors, reads on left, version 0,
`_numCores` from `hardware_concurrency()` (parameter `hwCores`) with fallback 32,
`_readersLength = _numCores * ratio`, counter arrays allocated and the used (stride)
slots set to 0 (we model the arrays as everywhere-0 functions; only stride slots are
ever accessed, see the claim about `thread_2_tid`). -/
def mkLR (hwCores : ℕ) : LRState :=
  let nc := if hwCores = 0 then lrollNumberOfCores else hwCores
  { set1 := []
    set2 := []
    leftRight := false
    versionIndex := false
    readersVersion0 := fun _ => 0
    readersVersion1 := fun _ => 0
    numCores := nc
    readersLength := nc * lrollCountersRatio }

/-- The xorshift mix inside `thread_2_tid` on a `std::size_t` (64-bit) hash value:
`tid ^= (tid << 21); tid ^= (tid >> 35); tid ^= (tid << 4);` with wraparound mod 2^64. -/
def mixTid (h : ℕ) : ℕ :=
  let t0 := h % 2 ^ 64
  let t1 := (Nat.xor t0 ((t0 * 2 ^ 21) % 2 ^ 64)) % 2 ^ 64
  let t2 := Nat.xor t1 (t1 / 2 ^ 35)
  (Nat.xor t2 ((t2 * 2 ^ 4) % 2 ^ 64)) % 2 ^ 64

/-- `thread_2_tid()`: `(int)((tid % _numCores) * LROLLS_COUNTERS_RATIO)`, where `tid` is
the mixed hash of the calling thread's id (parameter `h`). -/
def thread2tid (h : ℕ) (numCores : ℕ) : ℕ :=
  (mixTid h % numCores) * lrollCountersRatio

/-- `readIndicatorArrive(tid)`: loads `_versionIndex`, `fetch_add(1)` on the slot `tid`
of the array that index names, and returns the loaded index. -/
def readIndicatorArrive (s : LRState) (tid : ℕ) : Bool × LRState :=
  let localVersionIndex := s.versionIndex
  if localVersionIndex = false then
    (localVersionIndex,
      { s with readersVersion0 :=
          Function.update s.readersVersion0 tid (s.readersVersion0 tid + 1) })
  else
    (localVersionIndex,
      { s with readersVersion1 :=
          Function.update s.readersVersion1 tid (s.readersVersion1 tid + 1) })

/-- `readIndicatorDepart(tid, localVersionIndex)`: `fetch_add(-1)` on the slot `tid` of
the array named by `localVersionIndex`. -/
def readIndicatorDepart (s : LRState) (tid : ℕ) (localVersionIndex : Bool) : LRState :=
  if localVersionIndex = false then
    { s with readersVersion0 :=
        Function.update s.readersVersion0 tid (s.readersVersion0 tid - 1) }
  else
    { s with readersVersion1 :=
        Function.update s.readersVersion1 tid (s.readersVersion1 tid - 1) }

/-- `readIndicatorIsEmpty(localVersionIndex)`: scans slots `0, ratio, 2*ratio, ...` below
`_readersLength` of the named array; true iff every scanned slot is 0. -/
def readIndicatorIsEmpty (s : LRState) (localVersionIndex : Bool) : Bool :=
  if localVersionIndex = false then
    (strideSlots s.readersLength lrollCountersRatio).all
      (fun tid => s.readersVersion0 tid == 0)
  else
    (strideSlots s.readersLength lrollCountersRatio).all
      (fun tid => s.readersVersion1 tid == 0)

/-- `toggleVersionAndWait()`: with `lv = _versionIndex`, `prev = lv % 2 = lv`,
`next = (lv+1) % 2 = !lv`: spin until `isEmpty(next)`, store `next` into
`_versionIndex`, spin until `isEmpty(prev)`.  In the sequential embedding no other
thread can change a counter, so each spin loop either exits on its first test or
never; `none` models the diverging case. -/
def toggleVersionAndWait (s : LRState) : Option LRState :=
  let localVersionIndex := s.versionIndex
  let prevVersionIndex := localVersionIndex
  let nextVersionIndex := !localVersionIndex
  if readIndicatorIsEmpty s nextVersionIndex then
    let s' := { s with versionIndex := nextVersionIndex }
    if readIndicatorIsEmpty s' prevVersionIndex then some s' else none
  else none

/-- `add(key)`: under the writers mutex, mutate the unused mirror; on duplicate return
false at once; otherwise flip `_leftRight`, run `toggleVersionAndWait`, repeat the add
on the other mirror (return value ignored), return true. -/
def LRState.add (s : LRState) (key : ℤ) : Option (Bool × LRState) :=
  if s.leftRight = false then
    match llAdd s.set2 key with
    | (false, _) => some (false, s)
    | (true, l2) =>
      let s1 := { s with set2 := l2, leftRight := true }
      match toggleVersionAndWait s1 with
      | none => none
      | some s2 => some (true, { s2 with set1 := (llAdd s2.set1 key).2 })
  else
    match llAdd s.set1 key with
    | (false, _) => some (false, s)
    | (true, l1) =>
      let s1 := { s with set1 := l1, leftRight := false }
      match toggleVersionAndWait s1 with
      | none => none
      | some s2 => some (true, { s2 with set2 := (llAdd s2.set2 key).2 })

/-- `remove(key)`: symmetric to `add`, substituting `remove` for `add`. -/
def LRState.remove (s : LRState) (key : ℤ) : Option (Bool × LRState) :=
  if s.leftRight = false then
    match llRemove s.set2 key with
    | (false, _) => some (false, s)
    | (true, l2) =>
      let s1 := { s with set2 := l2, leftRight := true }
      match toggleVersionAndWait s1 with
      | none => none
      | some s2 => some (true, { s2 with set1 := (llRemove s2.set1 key).2 })
  else
    match llRemove s.set1 key with
    | (false, _) => some (false, s)
    | (true, l1) =>
      let s1 := { s with set1 := l1, leftRight := false }
      match toggleVersionAndWait s1 with
      | none => none
      | some s2 => some (true, { s2 with set2 := (llRemove s2.set2 key).2 })

/-- `contains(key)`: `tid = thread_2_tid()` (the caller's hashed identity is the
parameter `h`), arrive, read `_leftRight` and query the mirror it names, depart with
the version index returned by arrive. -/
def LRState.contains (s : LRState) (h : ℕ) (key : ℤ) : Bool × LRState :=
  let tid := thread2tid h s.numCores
  let a := readIndicatorArrive s tid
  let s1 := a.2
  let retValue := if s1.leftRight = false then llContains s1.set1 key
                  else llContains s1.set2 key
  (retValue, readIndicatorDepart s1 tid a.1)

/-- The mirror named by the active selector (`_leftRight`): the one readers consult. -/
def LRState.foreground (s : LRState) : List ℤ :=
  if s.leftRight = false then s.set1 else s.set2

/-- The mirror NOT named by the active selector: the one a writer mutates first. -/
def LRState.background (s : LRState) : List ℤ :=
  if s.leftRight = false then s.set2 else s.set1

/-- One call issued by the single client thread of the sequential claims; for
`contains`, `h` is the calling thread's hashed identity fed to `thread_2_tid`. -/
inductive LROp where
  | addK (k : ℤ)
  | removeK (k : ℤ)
  | containsK (h : ℕ) (k : ℤ)
  deriving DecidableEq

/-- Run a sequence of single-threaded calls on the container, collecting the boolean
results; `none` if some writer call would spin forever. -/
def runLR : LRState → List LROp → Option (List Bool × LRState)
  | s, [] => some ([], s)
  | s, op :: ops =>
    let r : Option (Bool × LRState) :=
      match op with
      | .addK k => s.add k
      | .removeK k => s.remove k
      | .containsK h k => some (s.contains h k)
    match r with
    | none => none
    | some (b, s') =>
      match runLR s' ops with
      | none => none
      | some (bs, s'') => some (b :: bs, s'')

/-- Spec-side model (from the spec's words, §8 "Sequential correctness"): a plain set;
`add` "returns true iff key was absent before the call". -/
def specAdd (S : Finset ℤ) (k : ℤ) : Bool × Finset ℤ :=
  (decide (k ∉ S), insert k S)

/-- Spec-side model: `remove` "returns true iff key was present". -/
def specRemove (S : Finset ℤ) (k : ℤ) : Bool × Finset ℤ :=
  (decide (k ∈ S), S.erase k)

/-- Spec-side model: `contains` "reflects the net effect of all prior calls". -/
def specContains (S : Finset ℤ) (k : ℤ) : Bool :=
  decide (k ∈ S)

/-- Run a sequence of calls on the spec-side plain set. -/
def runSpec : Finset ℤ → List LROp → List Bool × Finset ℤ
  | S, [] => ([], S)
  | S, op :: ops =>
    let r : Bool × Finset ℤ :=
      match op with
      | .addK k => specAdd S k
      | .removeK k => specRemove S k
      | .containsK _ k => (specContains S k, S)
    let rest := runSpec r.2 ops
    (r.1 :: rest.1, rest.2)

/-! ### Helper lemmas about the read indicator and the toggle protocol -/

lemma readIndicatorArrive_fst (s : LRState) (tid : ℕ) :
    (readIndicatorArrive s tid).1 = s.versionIndex := by
  cases hv : s.versionIndex <;> simp [readIndicatorArrive, hv]

lemma depart_arrive (s : LRState) (tid : ℕ) :
    readIndicatorDepart (readIndicatorArrive s tid).2 tid (readIndicatorArrive s tid).1 = s := by
  obtain ⟨l1, l2, lr, vi, r0, r1, nc, rl⟩ := s
  cases vi <;>
    simp [readIndicatorArrive, readIndicatorDepart, Function.update_idem,
      Function.update_same, Function.update_eq_self]

lemma isEmpty_of_zero (s : LRState) (v : Bool)
    (h0 : ∀ j, s.readersVersion0 j = 0) (h1 : ∀ j, s.readersVersion1 j = 0) :
    readIndicatorIsEmpty s v = true := by
  cases v <;> simp [readIndicatorIsEmpty, List.all_eq_true, h0, h1]

lemma toggle_of_zero (s : LRState)
    (h0 : ∀ j, s.readersVersion0 j = 0) (h1 : ∀ j, s.readersVersion1 j = 0) :
    toggleVersionAndWait s = some { s with versionIndex := !s.versionIndex } := by
  have e1 : readIndicatorIsEmpty s (!s.versionIndex) = true := isEmpty_of_zero s _ h0 h1
  have e2 : readIndicatorIsEmpty { s with versionIndex := !s.versionIndex }
      s.versionIndex = true := isEmpty_of_zero _ _ h0 h1
  simp [toggleVersionAndWait, e1, e2]

lemma toggle_frame (s s' : LRState) (h : toggleVersionAndWait s = some s') :
    s'.set1 = s.set1 ∧ s'.set2 = s.set2 ∧ s'.leftRight = s.leftRight ∧
    s'.versionIndex = !s.versionIndex ∧
    s'.readersVersion0 = s.readersVersion0 ∧ s'.readersVersion1 = s.readersVersion1 ∧
    s'.numCores = s.numCores ∧ s'.readersLength = s.readersLength := by
  simp only [toggleVersionAndWait] at h
  split at h
  · split at h
    · rw [Option.some_inj] at h
      subst h
      simp
    · cases h
  · cases h

lemma contains_eq (s : LRState) (h : ℕ) (k : ℤ) :
    s.contains h k =
      ((if s.leftRight = false then llContains s.set1 k else llContains s.set2 k), s) := by
  obtain ⟨l1, l2, lr, vi, r0, r1, nc, rl⟩ := s
  cases vi <;>
    simp [LRState.contains, readIndicatorArrive, readIndicatorDepart,
      Function.update_idem, Function.update_same, Function.update_eq_self]

/-- C7: `contains(key)` returns the membership result of exactly the mirror named by the
active selector (`_set1` when `_leftRight = READS_ON_LEFT`, `_set2` otherwise), and the
state after the call is exactly the state before it: both mirrors, the selector and the
epoch index are untouched and the presence counter bumped by arrive is restored by the
matching depart. -/
theorem c7_contains_frame (s : LRState) (h : ℕ) (k : ℤ) :
    s.contains h k =
      ((if s.leftRight = false then llContains s.set1 k else llContains s.set2 k), s) :=
  contains_eq s h k

/-- C6: `readIndicatorArrive(tid)` returns the current epoch index and increments exactly
the caller's slot in the array for that index, leaving every other slot and the whole
other array unchanged; `readIndicatorDepart` with the returned index decrements the same
slot, so the matched pair restores the full container state (round-trip identity). -/
theorem c6_arrive_depart_roundtrip (s : LRState) (tid : ℕ) :
    (readIndicatorArrive s tid).1 = s.versionIndex ∧
    (if s.versionIndex = false then
      ((readIndicatorArrive s tid).2).readersVersion0 tid = s.readersVersion0 tid + 1 ∧
      (∀ j, j ≠ tid →
        ((readIndicatorArrive s tid).2).readersVersion0 j = s.readersVersion0 j) ∧
      ((readIndicatorArrive s tid).2).readersVersion1 = s.readersVersion1
    else
      ((readIndicatorArrive s tid).2).readersVersion1 tid = s.readersVersion1 tid + 1 ∧
      (∀ j, j ≠ tid →
        ((readIndicatorArrive s tid).2).readersVersion1 j = s.readersVersion1 j) ∧
      ((readIndicatorArrive s tid).2).readersVersion0 = s.readersVersion0) ∧
    readIndicatorDepart (readIndicatorArrive s tid).2 tid (readIndicatorArrive s tid).1 = s := by
  refine ⟨readIndicatorArrive_fst s tid, ?_, depart_arrive s tid⟩
  cases hv : s.versionIndex
  all_goals
    simp [readIndicatorArrive, hv, Function.update_same]
    intro j hj
    exact Function.update_noteq hj _ _

/-- C5: when every presence counter in both epoch arrays is zero, `toggleVersionAndWait`
terminates (the sequential embedding returns `some`), in order: the wait on the array for
`next = !cur` succeeds, the epoch index is stored, the wait on the array for `cur`
succeeds; the resulting state is the input state with the epoch index flipped (`1 - cur`,
i.e. `!cur` in the Bool encoding) and both counter arrays unchanged. -/
theorem c5_toggle_terminates (s : LRState)
    (h0 : ∀ j, s.readersVersion0 j = 0) (h1 : ∀ j, s.readersVersion1 j = 0) :
    toggleVersionAndWait s = some { s with versionIndex := !s.versionIndex } ∧
    readIndicatorIsEmpty s (!s.versionIndex) = true ∧
    readIndicatorIsEmpty { s with versionIndex := !s.versionIndex } s.versionIndex = true :=
  ⟨toggle_of_zero s h0 h1, isEmpty_of_zero s _ h0 h1, isEmpty_of_zero _ _ h0 h1⟩

theorem c5_toggle_terminates_witness :
    (∀ j, (mkLR 1).readersVersion0 j = 0) ∧ (∀ j, (mkLR 1).readersVersion1 j = 0) ∧
    (toggleVersionAndWait (mkLR 1) =
        some { mkLR 1 with versionIndex := !(mkLR 1).versionIndex } ∧
      readIndicatorIsEmpty (mkLR 1) (!(mkLR 1).versionIndex) = true ∧
      readIndicatorIsEmpty { mkLR 1 with versionIndex := !(mkLR 1).versionIndex }
        (mkLR 1).versionIndex = true) :=
  ⟨fun _ => rfl, fun _ => rfl,
    c5_toggle_terminates (mkLR 1) (fun _ => rfl) (fun _ => rfl)⟩

/-- C10: `thread_2_tid` returns `(hash % numCores) * ratio`, a multiple of the counters
ratio that is strictly below `readersLength = numCores * ratio`, hence a member of the
index sequence `0, ratio, 2*ratio, ...` that the constructor initialises and that
`readIndicatorIsEmpty` scans, so every counter access of arrive/depart and every scanned
slot is in bounds and initialised. -/
theorem c10_tid_in_bounds (h hwCores : ℕ) :
    thread2tid h (mkLR hwCores).numCores % lrollCountersRatio = 0 ∧
    thread2tid h (mkLR hwCores).numCores < (mkLR hwCores).readersLength ∧
    thread2tid h (mkLR hwCores).numCores ∈
      strideSlots (mkLR hwCores).readersLength lrollCountersRatio := by
  have hnc : (mkLR hwCores).numCores ≠ 0 := by
    by_cases h0 : hwCores = 0 <;> simp [mkLR, h0, lrollNumberOfCores]
  have hlen : (mkLR hwCores).readersLength = (mkLR hwCores).numCores * lrollCountersRatio :=
    rfl
  have hmod : thread2tid h (mkLR hwCores).numCores % lrollCountersRatio = 0 :=
    Nat.mul_mod_left _ _
  have h48 : 0 < lrollCountersRatio := by norm_num [lrollCountersRatio]
  have hlt : thread2tid h (mkLR hwCores).numCores < (mkLR hwCores).readersLength := by
    rw [hlen]
    exact (Nat.mul_lt_mul_right h48).mpr (Nat.mod_lt _ (Nat.pos_of_ne_zero hnc))
  refine ⟨hmod, hlt, ?_⟩
  unfold strideSlots
  rw [List.mem_filter, List.mem_range]
  exact ⟨hlt, by simp [hmod]⟩

/-! ### Helper lemmas about the modelled sequential set -/

lemma llAdd_of_mem {l : List ℤ} {k : ℤ} (hk : k ∈ l) : llAdd l k = (false, l) := by
  simp [llAdd, hk]

lemma llAdd_of_not_mem {l : List ℤ} {k : ℤ} (hk : k ∉ l) :
    llAdd l k = (true, List.orderedInsert (· ≤ ·) k l) := by
  simp [llAdd, hk]

lemma llRemove_of_mem {l : List ℤ} {k : ℤ} (hk : k ∈ l) : llRemove l k = (true, l.erase k) := by
  simp [llRemove, hk]

lemma llRemove_of_not_mem {l : List ℤ} {k : ℤ} (hk : k ∉ l) : llRemove l k = (false, l) := by
  simp [llRemove, hk]

lemma orderedInsert_toFinset (l : List ℤ) (k : ℤ) :
    (List.orderedInsert (· ≤ ·) k l).toFinset = insert k l.toFinset := by
  rw [List.toFinset_eq_of_perm _ _ (List.perm_orderedInsert _ k l)]
  simp

lemma orderedInsert_nodup {l : List ℤ} {k : ℤ} (hk : k ∉ l) (hn : l.Nodup) :
    (List.orderedInsert (· ≤ ·) k l).Nodup :=
  ((List.perm_orderedInsert _ k l).nodup_iff).mpr (by simp [hn, hk])

lemma toFinset_erase_of_nodup (l : List ℤ) (k : ℤ) (hn : l.Nodup) :
    (l.erase k).toFinset = l.toFinset.erase k := by
  ext a
  simp [List.mem_toFinset, hn.mem_erase_iff, Finset.mem_erase]

/-! ### The single-threaded coherence invariant -/

/-- The at-rest invariant of a single-threaded execution: both mirrors are duplicate-free
and hold the same key set `S`, and no reader is in flight (all counters are zero). -/
def Coherent (s : LRState) (S : Finset ℤ) : Prop :=
  s.set1.Nodup ∧ s.set2.Nodup ∧ s.set1.toFinset = S ∧ s.set2.toFinset = S ∧
  (∀ j, s.readersVersion0 j = 0) ∧ (∀ j, s.readersVersion1 j = 0)

lemma mk_coherent (hwCores : ℕ) : Coherent (mkLR hwCores) ∅ :=
  ⟨List.nodup_nil, List.nodup_nil, rfl, rfl, fun _ => rfl, fun _ => rfl⟩

/-- The state of the container after a writer operation that installed mirrors `l1`, `l2`
with selector `lr` and ran the toggle protocol once. -/
def mutState (s : LRState) (l1 l2 : List ℤ) (lr : Bool) : LRState :=
  { s with set1 := l1, set2 := l2, leftRight := lr, versionIndex := !s.versionIndex }

lemma add_coherent (s : LRState) (S : Finset ℤ) (k : ℤ) (h : Coherent s S) :
    ∃ s', s.add k = some (decide (k ∉ S), s') ∧ Coherent s' (insert k S) := by
  obtain ⟨hn1, hn2, hf1, hf2, hz0, hz1⟩ := h
  by_cases hk : k ∈ S
  · have hk1 : k ∈ s.set1 := by rw [← List.mem_toFinset, hf1]; exact hk
    have hk2 : k ∈ s.set2 := by rw [← List.mem_toFinset, hf2]; exact hk
    refine ⟨s, ?_, ?_⟩
    · cases hlr : s.leftRight <;>
        simp [LRState.add, hlr, llAdd_of_mem hk1, llAdd_of_mem hk2, hk]
    · exact ⟨hn1, hn2, by rw [hf1, Finset.insert_eq_self.mpr hk],
        by rw [hf2, Finset.insert_eq_self.mpr hk], hz0, hz1⟩
  · have hk1 : k ∉ s.set1 := by rw [← List.mem_toFinset, hf1]; exact hk
    have hk2 : k ∉ s.set2 := by rw [← List.mem_toFinset, hf2]; exact hk
    cases hlr : s.leftRight
    · have htog := toggle_of_zero
        { s with set2 := List.orderedInsert (· ≤ ·) k s.set2, leftRight := true } hz0 hz1
      refine ⟨mutState s (List.orderedInsert (· ≤ ·) k s.set1)
        (List.orderedInsert (· ≤ ·) k s.set2) true, ?_, ?_⟩
      · simp [LRState.add, mutState, hlr, llAdd_of_not_mem hk1, llAdd_of_not_mem hk2, htog, hk]
      · exact ⟨orderedInsert_nodup hk1 hn1, orderedInsert_nodup hk2 hn2,
          by simp [mutState, orderedInsert_toFinset, hf1],
          by simp [mutState, orderedInsert_toFinset, hf2], hz0, hz1⟩
    · have htog := toggle_of_zero
        { s with set1 := List.orderedInsert (· ≤ ·) k s.set1, leftRight := false } hz0 hz1
      refine ⟨mutState s (List.orderedInsert (· ≤ ·) k s.set1)
        (List.orderedInsert (· ≤ ·) k s.set2) false, ?_, ?_⟩
      · simp [LRState.add, mutState, hlr, llAdd_of_not_mem hk1, llAdd_of_not_mem hk2, htog, hk]
      · exact ⟨orderedInsert_nodup hk1 hn1, orderedInsert_nodup hk2 hn2,
          by simp [mutState, orderedInsert_toFinset, hf1],
          by simp [mutState, orderedInsert_toFinset, hf2], hz0, hz1⟩

lemma remove_coherent (s : LRState) (S : Finset ℤ) (k : ℤ) (h : Coherent s S) :
    ∃ s', s.remove k = some (decide (k ∈ S), s') ∧ Coherent s' (S.erase k) := by
  obtain ⟨hn1, hn2, hf1, hf2, hz0, hz1⟩ := h
  by_cases hk : k ∈ S
  · have hk1 : k ∈ s.set1 := by rw [← List.mem_toFinset, hf1]; exact hk
    have hk2 : k ∈ s.set2 := by rw [← List.mem_toFinset, hf2]; exact hk
    cases hlr : s.leftRight
    · have htog := toggle_of_zero
        { s with set2 := s.set2.erase k, leftRight := true } hz0 hz1
      refine ⟨mutState s (s.set1.erase k) (s.set2.erase k) true, ?_, ?_⟩
      · simp [LRState.remove, mutState, hlr, llRemove_of_mem hk1, llRemove_of_mem hk2, htog, hk]
      · exact ⟨hn1.erase k, hn2.erase k,
          by simp [mutState, toFinset_erase_of_nodup _ _ hn1, hf1],
          by simp [mutState, toFinset_erase_of_nodup _ _ hn2, hf2], hz0, hz1⟩
    · have htog := toggle_of_zero
        { s with set1 := s.set1.erase k, leftRight := false } hz0 hz1
      refine ⟨mutState s (s.set1.erase k) (s.set2.erase k) false, ?_, ?_⟩
      · simp [LRState.remove, mutState, hlr, llRemove_of_mem hk1, llRemove_of_mem hk2, htog, hk]
      · exact ⟨hn1.erase k, hn2.erase k,
          by simp [mutState, toFinset_erase_of_nodup _ _ hn1, hf1],
          by simp [mutState, toFinset_erase_of_nodup _ _ hn2, hf2], hz0, hz1⟩
  · have hk1 : k ∉ s.set1 := by rw [← List.mem_toFinset, hf1]; exact hk
    have hk2 : k ∉ s.set2 := by rw [← List.mem_toFinset, hf2]; exact hk
    refine ⟨s, ?_, ?_⟩
    · cases hlr : s.leftRight <;>
        simp [LRState.remove, hlr, llRemove_of_not_mem hk1, llRemove_of_not_mem hk2, hk]
    · exact ⟨hn1, hn2, by rw [hf1, Finset.erase_eq_self.mpr hk],
        by rw [hf2, Finset.erase_eq_self.mpr hk], hz0, hz1⟩


lemma contains_coherent (s : LRState) (S : Finset ℤ) (h : ℕ) (k : ℤ) (hc : Coherent s S) :
    s.contains h k = (decide (k ∈ S), s) := by
  obtain ⟨hn1, hn2, hf1, hf2, _, _⟩ := hc
  rw [contains_eq]
  have : (if s.leftRight = false then llContains s.set1 k else llContains s.set2 k) =
      decide (k ∈ S) := by
    cases hlr : s.leftRight
    · simp only [if_pos rfl, llContains]
      exact decide_eq_decide.mpr (by rw [← hf1]; exact List.mem_toFinset.symm)
    · simp only [Bool.true_eq_false, if_neg, llContains]
      exact decide_eq_decide.mpr (by rw [← hf2]; exact List.mem_toFinset.symm)
  rw [this]

lemma runLR_spec (ops : List LROp) : ∀ (s : LRState) (S : Finset ℤ), Coherent s S →
    ∃ s', runLR s ops = some ((runSpec S ops).1, s') ∧ Coherent s' (runSpec S ops).2 := by
  induction ops with
  | nil => exact fun s S hc => ⟨s, rfl, hc⟩
  | cons op ops ih =>
    intro s S hc
    cases op with
    | addK k =>
      obtain ⟨s1, he, hc1⟩ := add_coherent s S k hc
      obtain ⟨s', he', hc'⟩ := ih s1 (insert k S) hc1
      exact ⟨s', by simp [runLR, he, he', runSpec, specAdd], by simpa [runSpec, specAdd] using hc'⟩
    | removeK k =>
      obtain ⟨s1, he, hc1⟩ := remove_coherent s S k hc
      obtain ⟨s', he', hc'⟩ := ih s1 (S.erase k) hc1
      exact ⟨s', by simp [runLR, he, he', runSpec, specRemove],
        by simpa [runSpec, specRemove] using hc'⟩
    | containsK h k =>
      have he := contains_coherent s S h k hc
      obtain ⟨s', he', hc'⟩ := ih s S hc
      exact ⟨s', by simp [runLR, he, he', runSpec, specContains],
        by simpa [runSpec] using hc'⟩

lemma runLR_mk (hwCores : ℕ) (ops : List LROp) :
    (runLR (mkLR hwCores) ops).map Prod.fst = some (runSpec ∅ ops).1 := by
  obtain ⟨s', he, _⟩ := runLR_spec ops (mkLR hwCores) ∅ (mk_coherent hwCores)
  simp [he]

/-- C1: starting from a newly constructed container, any single-threaded sequence of
add/remove/contains calls produces exactly the boolean results of a plain set: add is
true iff the key was absent, remove is true iff it was present, contains reflects the
net effect of all prior calls (and no writer call diverges). -/
theorem c1_sequential_matches_plain_set (hwCores : ℕ) (ops : List LROp) :
    (runLR (mkLR hwCores) ops).map Prod.fst = some (runSpec ∅ ops).1 :=
  runLR_mk hwCores ops

/-- C4: on a state whose mirrors agree, adding a key that is already present returns
false and leaves the container state exactly unchanged (no mirror mutation, no selector
flip, no epoch change, no drain run); removing an absent key likewise. -/
theorem c4_logical_noop (s : LRState) (k : ℤ)
    (hEq : s.set1.toFinset = s.set2.toFinset) :
    (k ∈ s.set1.toFinset → s.add k = some (false, s)) ∧
    (k ∉ s.set1.toFinset → s.remove k = some (false, s)) := by
  constructor
  · intro hk
    have hk1 : k ∈ s.set1 := List.mem_toFinset.mp hk
    have hk2 : k ∈ s.set2 := List.mem_toFinset.mp (hEq ▸ hk)
    cases hlr : s.leftRight <;>
      simp [LRState.add, hlr, llAdd_of_mem hk1, llAdd_of_mem hk2]
  · intro hk
    have hk1 : k ∉ s.set1 := fun hx => hk (List.mem_toFinset.mpr hx)
    have hk2 : k ∉ s.set2 := fun hx => hk (hEq.symm ▸ List.mem_toFinset.mpr hx)
    cases hlr : s.leftRight <;>
      simp [LRState.remove, hlr, llRemove_of_not_mem hk1, llRemove_of_not_mem hk2]

/-- A container state with both mirrors holding key 5 (used as a concrete instance). -/
def dupState : LRState := { mkLR 1 with set1 := [5], set2 := [5] }

theorem c4_logical_noop_witness :
    dupState.set1.toFinset = dupState.set2.toFinset ∧
    (((5 : ℤ) ∈ dupState.set1.toFinset → dupState.add 5 = some (false, dupState)) ∧
     ((5 : ℤ) ∉ dupState.set1.toFinset → dupState.remove 5 = some (false, dupState))) :=
  ⟨rfl, c4_logical_noop dupState 5 rfl⟩

/-- C8 counterexample: the source constructor takes no core-count parameter, so the
count is never a caller-supplied hint; and it does not always equal the runtime
hardware-concurrency estimate either: at estimate 0 it is the constant fallback 32. -/
theorem c8_no_hint_counterexample : (mkLR 0).numCores = 32 ∧ (mkLR 0).numCores ≠ 0 :=
  ⟨rfl, by decide⟩

/-- C8 (amended): construction takes no core-count parameter; the core count is always
the runtime hardware-concurrency estimate, replaced by the constant 32 when that
estimate is 0.  It is used solely to size the two presence-counter arrays, each of
`numCores * ratio` entries, and it does not affect the observable results of any
subsequent operation sequence. -/
theorem c8_core_count_sizing (hwCores : ℕ) :
    (mkLR hwCores).numCores = (if hwCores = 0 then lrollNumberOfCores else hwCores) ∧
    (mkLR hwCores).readersLength = (mkLR hwCores).numCores * lrollCountersRatio ∧
    ∀ hw2 ops, (runLR (mkLR hwCores) ops).map Prod.fst =
      (runLR (mkLR hw2) ops).map Prod.fst :=
  ⟨rfl, rfl, fun hw2 ops => by rw [runLR_mk, runLR_mk]⟩

/-- C9: from a fresh container, the sequence add 5, add 5, contains 5, remove 5,
contains 5, remove 5 returns exactly true, false, true, true, false, false; and for
every key, a double add returns true then false, and remove on the empty set returns
false. -/
theorem c9_concrete_scenario (hwCores hid : ℕ) (k : ℤ) :
    (runLR (mkLR hwCores) [.addK 5, .addK 5, .containsK hid 5,
        .removeK 5, .containsK hid 5, .removeK 5]).map Prod.fst =
      some [true, false, true, true, false, false] ∧
    (runLR (mkLR hwCores) [.addK k, .addK k]).map Prod.fst = some [true, false] ∧
    (runLR (mkLR hwCores) [.removeK k]).map Prod.fst = some [false] := by
  refine ⟨?_, ?_, ?_⟩ <;> rw [runLR_mk] <;>
    simp [runSpec, specAdd, specRemove, specContains]

/-- C3: on a state whose mirrors hold identical key sets, a successful `add` (result
true) ends with the mirrors again holding identical key sets, and between the two
internal mutations the mirrors differ by exactly the added key: the background mirror
after the first mutation holds `insert k` of the untouched foreground mirror, with `k`
not in the foreground; symmetrically for a successful `remove` with `erase`. -/
theorem c3_mirrors_converge (s : LRState) (k : ℤ)
    (hn1 : s.set1.Nodup) (hn2 : s.set2.Nodup)
    (hEq : s.set1.toFinset = s.set2.toFinset) :
    (∀ s', s.add k = some (true, s') →
      s'.set1.toFinset = s'.set2.toFinset ∧
      (llAdd s.background k).2.toFinset = insert k s.foreground.toFinset ∧
      k ∉ s.foreground.toFinset) ∧
    (∀ s', s.remove k = some (true, s') →
      s'.set1.toFinset = s'.set2.toFinset ∧
      (llRemove s.background k).2.toFinset = s.foreground.toFinset.erase k ∧
      k ∈ s.foreground.toFinset) := by
  constructor
  · intro s' hadd
    cases hlr : s.leftRight
    case false =>
      by_cases hk2 : k ∈ s.set2
      · simp [LRState.add, hlr, llAdd_of_mem hk2] at hadd
      · have hk1 : k ∉ s.set1 := fun hx =>
          hk2 (List.mem_toFinset.mp (hEq ▸ List.mem_toFinset.mpr hx))
        simp only [LRState.add, hlr, if_pos, llAdd_of_not_mem hk2] at hadd
        cases htog : toggleVersionAndWait
            { s with set2 := List.orderedInsert (· ≤ ·) k s.set2, leftRight := true } with
        | none => rw [htog] at hadd; exact absurd hadd (by simp)
        | some s2 =>
          rw [htog] at hadd
          simp only [Option.some.injEq, Prod.mk.injEq, true_and] at hadd
          obtain ⟨ht1, ht2, _⟩ := toggle_frame _ _ htog
          subst hadd
          refine ⟨?_, ?_, ?_⟩
          · simp only [ht1, ht2]
            rw [llAdd_of_not_mem hk1]
            simp [orderedInsert_toFinset, hEq]
          · simp [LRState.background, LRState.foreground, hlr, llAdd_of_not_mem hk2,
              orderedInsert_toFinset, hEq]
          · simp [LRState.foreground, hlr, List.mem_toFinset, hk1]
    case true =>
      by_cases hk1 : k ∈ s.set1
      · simp [LRState.add, hlr, llAdd_of_mem hk1] at hadd
      · have hk2 : k ∉ s.set2 := fun hx =>
          hk1 (List.mem_toFinset.mp (hEq.symm ▸ List.mem_toFinset.mpr hx))
        simp only [LRState.add, hlr, Bool.true_eq_false, if_false,
          llAdd_of_not_mem hk1] at hadd
        cases htog : toggleVersionAndWait
            { s with set1 := List.orderedInsert (· ≤ ·) k s.set1, leftRight := false } with
        | none => rw [htog] at hadd; exact absurd hadd (by simp)
        | some s2 =>
          rw [htog] at hadd
          simp only [Option.some.injEq, Prod.mk.injEq, true_and] at hadd
          obtain ⟨ht1, ht2, _⟩ := toggle_frame _ _ htog
          subst hadd
          refine ⟨?_, ?_, ?_⟩
          · simp only [ht1, ht2]
            rw [llAdd_of_not_mem hk2]
            simp [orderedInsert_toFinset, hEq]
          · simp [LRState.background, LRState.foreground, hlr, llAdd_of_not_mem hk1,
              orderedInsert_toFinset, hEq]
          · simp [LRState.foreground, hlr, List.mem_toFinset, hk2]
  · intro s' hrem
    cases hlr : s.leftRight
    case false =>
      by_cases hk2 : k ∈ s.set2
      · have hk1 : k ∈ s.set1 := List.mem_toFinset.mp (hEq.symm ▸ List.mem_toFinset.mpr hk2)
        simp only [LRState.remove, hlr, if_pos, llRemove_of_mem hk2] at hrem
        cases htog : toggleVersionAndWait
            { s with set2 := s.set2.erase k, leftRight := true } with
        | none => rw [htog] at hrem; exact absurd hrem (by simp)
        | some s2 =>
          rw [htog] at hrem
          simp only [Option.some.injEq, Prod.mk.injEq, true_and] at hrem
          obtain ⟨ht1, ht2, _⟩ := toggle_frame _ _ htog
          subst hrem
          refine ⟨?_, ?_, ?_⟩
          · simp only [ht1, ht2]
            rw [llRemove_of_mem hk1]
            simp [toFinset_erase_of_nodup _ _ hn1, toFinset_erase_of_nodup _ _ hn2, hEq]
          · simp [LRState.background, LRState.foreground, hlr, llRemove_of_mem hk2,
              toFinset_erase_of_nodup _ _ hn2, hEq]
          · simp [LRState.foreground, hlr, List.mem_toFinset, hk1]
      · simp [LRState.remove, hlr, llRemove_of_not_mem hk2] at hrem
    case true =>
      by_cases hk1 : k ∈ s.set1
      · have hk2 : k ∈ s.set2 := List.mem_toFinset.mp (hEq ▸ List.mem_toFinset.mpr hk1)
        simp only [LRState.remove, hlr, Bool.true_eq_false, if_false,
          llRemove_of_mem hk1] at hrem
        cases htog : toggleVersionAndWait
            { s with set1 := s.set1.erase k, leftRight := false } with
        | none => rw [htog] at hrem; exact absurd hrem (by simp)
        | some s2 =>
          rw [htog] at hrem
          simp only [Option.some.injEq, Prod.mk.injEq, true_and] at hrem
          obtain ⟨ht1, ht2, _⟩ := toggle_frame _ _ htog
          subst hrem
          refine ⟨?_, ?_, ?_⟩
          · simp only [ht1, ht2]
            rw [llRemove_of_mem hk2]
            simp [toFinset_erase_of_nodup _ _ hn1, toFinset_erase_of_nodup _ _ hn2, hEq]
          · simp [LRState.background, LRState.foreground, hlr, llRemove_of_mem hk1,
              toFinset_erase_of_nodup _ _ hn1, hEq]
          · simp [LRState.foreground, hlr, List.mem_toFinset, hk2]
      · simp [LRState.remove, hlr, llRemove_of_not_mem hk1] at hrem

theorem c3_mirrors_converge_witness :
    (mkLR 1).set1.Nodup ∧ (mkLR 1).set2.Nodup ∧
    (mkLR 1).set1.toFinset = (mkLR 1).set2.toFinset ∧
    ((∀ s', (mkLR 1).add 5 = some (true, s') →
        s'.set1.toFinset = s'.set2.toFinset ∧
        (llAdd (mkLR 1).background 5).2.toFinset = insert 5 (mkLR 1).foreground.toFinset ∧
        (5 : ℤ) ∉ (mkLR 1).foreground.toFinset) ∧
     (∀ s', (mkLR 1).remove 5 = some (true, s') →
        s'.set1.toFinset = s'.set2.toFinset ∧
        (llRemove (mkLR 1).background 5).2.toFinset = (mkLR 1).foreground.toFinset.erase 5 ∧
        (5 : ℤ) ∈ (mkLR 1).foreground.toFinset)) :=
  ⟨List.nodup_nil, List.nodup_nil, rfl,
    c3_mirrors_converge (mkLR 1) 5 List.nodup_nil List.nodup_nil rfl⟩

/-!
### Interleaved small-step model for the concurrency claim

Sequentially consistent interleaving of one writer thread (writers are serialised by
`_writersMutex`, so the sequence of writer critical sections is modelled as a single
writer cycling through operations) and `R` reader threads executing `contains` in a
loop.  Each transition is one atomic access of the source: readers perform the two
separate atomics of `readIndicatorArrive` (load of `_versionIndex`, then `fetch_add`),
the load of `_leftRight`, the query of the selected mirror, and the `fetch_add(-1)` of
`readIndicatorDepart`; the writer performs the load of `_leftRight`, the mutation of the
unused mirror (one step, succeeding or failing for a duplicate/absent key), the store of
`_leftRight`, the load of `_versionIndex`, the per-slot loads of the two
`readIndicatorIsEmpty` scan loops (a nonzero slot restarts the scan, modelling the
spin), the store of `_versionIndex`, and the second mirror mutation.  Slots are
abstracted to `Fin n` (abstract slot `j` is source index `j * ratio`); `slotOf` is the
`thread_2_tid` assignment of reader threads to slots (collisions allowed).
-/

/-- Program counter of a reader thread executing `contains`. -/
inductive RPc where
  /-- before the call / between calls -/
  | atStart : RPc
  /-- loaded `_versionIndex` into `localVersionIndex = e`, has not yet incremented -/
  | atLoadedVi (e : Bool) : RPc
  /-- incremented its slot in array `e` (arrive complete) -/
  | atArrived (e : Bool) : RPc
  /-- loaded `_leftRight = m`: about to read mirror `m` (the consulting window) -/
  | atLoadedLr (e m : Bool) : RPc
  /-- finished reading mirror `m`, about to depart -/
  | atRead (e m : Bool) : RPc
  deriving DecidableEq

/-- Program counter of the writer thread (one add/remove critical section). -/
inductive WPc where
  /-- not inside a writer critical section -/
  | idle : WPc
  /-- loaded `_leftRight = wlr`; about to mutate the unused mirror `!wlr` -/
  | atMut1 (wlr : Bool) : WPc
  /-- first mutation done; about to store `!wlr` into `_leftRight` -/
  | atFlip (wlr : Bool) : WPc
  /-- inside `toggleVersionAndWait`, about to load `_versionIndex` -/
  | atLoadVi (wlr : Bool) : WPc
  /-- first wait: scanning array `!lv`, next slot to check is `j` -/
  | atScan1 (wlr lv : Bool) (j : ℕ) : WPc
  /-- first wait passed; about to store `!lv` into `_versionIndex` -/
  | atToggle (wlr lv : Bool) : WPc
  /-- second wait: scanning array `lv`, next slot to check is `j` -/
  | atScan2 (wlr lv : Bool) (j : ℕ) : WPc
  /-- drain complete; about to mutate the previously active mirror `wlr` -/
  | atMut2 (wlr lv : Bool) : WPc
  deriving DecidableEq

/-- Shared state plus per-thread program counters: `lr` is `_leftRight`, `vi` is
`_versionIndex`, `counters b` is the array `_readersVersionB`. -/
structure LRConfig (R n : ℕ) where
  lr : Bool
  vi : Bool
  counters : Bool → Fin n → ℤ
  readers : Fin R → RPc
  writer : WPc

/-- A `fetch_add(d)` on slot `sl` of counter array `e`. -/
def bump {n : ℕ} (f : Bool → Fin n → ℤ) (e : Bool) (sl : Fin n) (d : ℤ) :
    Bool → Fin n → ℤ :=
  fun e' sl' => if e' = e ∧ sl' = sl then f e' sl' + d else f e' sl'

/-- Replace reader `i`'s program counter. -/
def setReader {R n : ℕ} (c : LRConfig R n) (i : Fin R) (p : RPc) : LRConfig R n :=
  { c with readers := Function.update c.readers i p }

/-- One atomic step of the interleaved system.  `slotOf` maps each reader thread to the
counter slot its identity hashes to. -/
inductive LRStep {R n : ℕ} (slotOf : Fin R → Fin n) :
    LRConfig R n → LRConfig R n → Prop where
  | rLoadVi (c : LRConfig R n) (i : Fin R) : c.readers i = RPc.atStart →
      LRStep slotOf c (setReader c i (RPc.atLoadedVi c.vi))
  | rArrive (c : LRConfig R n) (i : Fin R) (e : Bool) : c.readers i = RPc.atLoadedVi e →
      LRStep slotOf c
        { setReader c i (RPc.atArrived e) with counters := bump c.counters e (slotOf i) 1 }
  | rLoadLr (c : LRConfig R n) (i : Fin R) (e : Bool) : c.readers i = RPc.atArrived e →
      LRStep slotOf c (setReader c i (RPc.atLoadedLr e c.lr))
  | rRead (c : LRConfig R n) (i : Fin R) (e m : Bool) : c.readers i = RPc.atLoadedLr e m →
      LRStep slotOf c (setReader c i (RPc.atRead e m))
  | rDepart (c : LRConfig R n) (i : Fin R) (e m : Bool) : c.readers i = RPc.atRead e m →
      LRStep slotOf c
        { setReader c i RPc.atStart with counters := bump c.counters e (slotOf i) (-1) }
  | wBegin (c : LRConfig R n) : c.writer = WPc.idle →
      LRStep slotOf c { c with writer := WPc.atMut1 c.lr }
  | wMut1Fail (c : LRConfig R n) (wlr : Bool) : c.writer = WPc.atMut1 wlr →
      LRStep slotOf c { c with writer := WPc.idle }
  | wMut1Ok (c : LRConfig R n) (wlr : Bool) : c.writer = WPc.atMut1 wlr →
      LRStep slotOf c { c with writer := WPc.atFlip wlr }
  | wFlip (c : LRConfig R n) (wlr : Bool) : c.writer = WPc.atFlip wlr →
      LRStep slotOf c { c with lr := !wlr, writer := WPc.atLoadVi wlr }
  | wLoadVi (c : LRConfig R n) (wlr : Bool) : c.writer = WPc.atLoadVi wlr →
      LRStep slotOf c { c with writer := WPc.atScan1 wlr c.vi 0 }
  | wScan1Hit (c : LRConfig R n) (wlr lv : Bool) (j : ℕ) (hj : j < n) :
      c.writer = WPc.atScan1 wlr lv j → c.counters (!lv) ⟨j, hj⟩ ≠ 0 →
      LRStep slotOf c { c with writer := WPc.atScan1 wlr lv 0 }
  | wScan1Zero (c : LRConfig R n) (wlr lv : Bool) (j : ℕ) (hj : j < n) :
      c.writer = WPc.atScan1 wlr lv j → c.counters (!lv) ⟨j, hj⟩ = 0 →
      LRStep slotOf c { c with writer := WPc.atScan1 wlr lv (j + 1) }
  | wScan1Done (c : LRConfig R n) (wlr lv : Bool) : c.writer = WPc.atScan1 wlr lv n →
      LRStep slotOf c { c with writer := WPc.atToggle wlr lv }
  | wToggle (c : LRConfig R n) (wlr lv : Bool) : c.writer = WPc.atToggle wlr lv →
      LRStep slotOf c { c with vi := !lv, writer := WPc.atScan2 wlr lv 0 }
  | wScan2Hit (c : LRConfig R n) (wlr lv : Bool) (j : ℕ) (hj : j < n) :
      c.writer = WPc.atScan2 wlr lv j → c.counters lv ⟨j, hj⟩ ≠ 0 →
      LRStep slotOf c { c with writer := WPc.atScan2 wlr lv 0 }
  | wScan2Zero (c : LRConfig R n) (wlr lv : Bool) (j : ℕ) (hj : j < n) :
      c.writer = WPc.atScan2 wlr lv j → c.counters lv ⟨j, hj⟩ = 0 →
      LRStep slotOf c { c with writer := WPc.atScan2 wlr lv (j + 1) }
  | wScan2Done (c : LRConfig R n) (wlr lv : Bool) : c.writer = WPc.atScan2 wlr lv n →
      LRStep slotOf c { c with writer := WPc.atMut2 wlr lv }
  | wMut2 (c : LRConfig R n) (wlr lv : Bool) : c.writer = WPc.atMut2 wlr lv →
      LRStep slotOf c { c with writer := WPc.idle }

/-- The freshly constructed container: reads on left, version 0, all counters 0, all
threads outside their operations. -/
def LRInit (R n : ℕ) : LRConfig R n :=
  { lr := false, vi := false, counters := fun _ _ => 0,
    readers := fun _ => RPc.atStart, writer := WPc.idle }

/-- Configurations reachable from the initial one by interleaved steps. -/
inductive LRReach {R n : ℕ} (slotOf : Fin R → Fin n) : LRConfig R n → Prop where
  | init : LRReach slotOf (LRInit R n)
  | step (c c' : LRConfig R n) : LRReach slotOf c → LRStep slotOf c c' → LRReach slotOf c'

/-- The epoch a reader has an outstanding increment for, if any (between its arrive
increment and its depart decrement). -/
def inflightEpoch : RPc → Option Bool
  | RPc.atArrived e => some e
  | RPc.atLoadedLr e _ => some e
  | RPc.atRead e _ => some e
  | _ => none

/-- The number of in-flight readers (between arrive increment and depart decrement)
whose epoch is `e` and whose hashed slot is `sl`. -/
def inflightCount {R n : ℕ} (slotOf : Fin R → Fin n) (f : Fin R → RPc)
    (e : Bool) (sl : Fin n) : ℤ :=
  ((Finset.univ.filter fun i => inflightEpoch (f i) = some e ∧ slotOf i = sl).card : ℤ)

/-- Each counter slot holds exactly the number of in-flight readers whose epoch and
hashed slot name it.  This is invariant I5 of the spec in exact form. -/
def CounterInv {R n : ℕ} (slotOf : Fin R → Fin n) (c : LRConfig R n) : Prop :=
  ∀ e sl, c.counters e sl = inflightCount slotOf c.readers e sl

/-- Coherence of the writer's locals with the shared variables: only the writer writes
`_leftRight` and `_versionIndex`, so its loaded copies stay accurate until it overwrites
them itself. -/
def WriterInv {R n : ℕ} (c : LRConfig R n) : Prop :=
  match c.writer with
  | WPc.idle => True
  | WPc.atMut1 wlr => wlr = c.lr
  | WPc.atFlip wlr => wlr = c.lr
  | WPc.atLoadVi wlr => c.lr = !wlr
  | WPc.atScan1 wlr lv _ => c.lr = !wlr ∧ lv = c.vi
  | WPc.atToggle wlr lv => c.lr = !wlr ∧ lv = c.vi
  | WPc.atScan2 wlr lv _ => c.lr = !wlr ∧ c.vi = !lv
  | WPc.atMut2 wlr lv => c.lr = !wlr ∧ c.vi = !lv

/-- What the writer's progress tells us about readers that are inside their consulting
window (`atLoadedLr`): outside a writer critical section every such reader targets the
live mirror; during the drain, readers still targeting the old mirror `wlr` are pinned
by a counter the remaining scans must still see; after the drain none are left. -/
def ReaderInv {R n : ℕ} (slotOf : Fin R → Fin n) (c : LRConfig R n) : Prop :=
  match c.writer with
  | WPc.idle => ∀ i e m, c.readers i = RPc.atLoadedLr e m → m = c.lr
  | WPc.atMut1 _ => ∀ i e m, c.readers i = RPc.atLoadedLr e m → m = c.lr
  | WPc.atFlip _ => ∀ i e m, c.readers i = RPc.atLoadedLr e m → m = c.lr
  | WPc.atLoadVi _ => True
  | WPc.atScan1 wlr lv j =>
      ∀ i e, c.readers i = RPc.atLoadedLr e wlr → e = !lv → j ≤ (slotOf i : ℕ)
  | WPc.atToggle wlr lv => ∀ i e, c.readers i = RPc.atLoadedLr e wlr → e = lv
  | WPc.atScan2 wlr lv j =>
      ∀ i e, c.readers i = RPc.atLoadedLr e wlr → e = lv ∧ j ≤ (slotOf i : ℕ)
  | WPc.atMut2 wlr _ => ∀ i e, c.readers i ≠ RPc.atLoadedLr e wlr

/-- The inductive invariant of the Left-Right protocol. -/
def LRInv {R n : ℕ} (slotOf : Fin R → Fin n) (c : LRConfig R n) : Prop :=
  WriterInv c ∧ CounterInv slotOf c ∧ ReaderInv slotOf c

/-- Safety: at the instant the writer performs either of its two mirror mutations, no
reader sits between its selector load and its mirror read with that mirror as target:
the first mutation targets `!wlr` (the mirror not named by the selector), the second
targets `wlr` (the mirror that was named by the selector before the flip). -/
def MutationSafe {R n : ℕ} (c : LRConfig R n) : Prop :=
  (∀ wlr, c.writer = WPc.atMut1 wlr → ∀ i e, c.readers i ≠ RPc.atLoadedLr e (!wlr)) ∧
  (∀ wlr lv, c.writer = WPc.atMut2 wlr lv → ∀ i e, c.readers i ≠ RPc.atLoadedLr e wlr)

/-! Counting helpers for the filter cardinalities used by `CounterInv`. -/

lemma card_shift {ι : Type} [Fintype ι] [DecidableEq ι] (q q' : ι → Prop)
    [DecidablePred q] [DecidablePred q'] (i : ι)
    (h : ∀ x, x ≠ i → (q' x ↔ q x)) :
    ((Finset.univ.filter q').card : ℤ) =
      ((Finset.univ.filter q).card : ℤ) +
        (if q' i then 1 else 0) - (if q i then 1 else 0) := by
  have tosum : ∀ (p : ι → Prop), ∀ (_ : DecidablePred p),
      ((Finset.univ.filter p).card : ℤ) = ∑ x, (if p x then (1 : ℤ) else 0) := by
    intro p hp
    rw [Finset.card_filter]
    push_cast
    rfl
  rw [tosum q' inferInstance, tosum q inferInstance,
    ← Finset.add_sum_erase _ _ (Finset.mem_univ i),
    ← Finset.add_sum_erase _ _ (Finset.mem_univ i)]
  have hsum : ∑ x ∈ Finset.univ.erase i, (if q' x then (1 : ℤ) else 0) =
      ∑ x ∈ Finset.univ.erase i, (if q x then (1 : ℤ) else 0) :=
    Finset.sum_congr rfl
      (fun x hx => if_congr (h x (Finset.ne_of_mem_erase hx)) rfl rfl)
  rw [hsum]
  ring

lemma inflightCount_congr {R n : ℕ} (slotOf : Fin R → Fin n) (f f' : Fin R → RPc)
    (i : Fin R) (hsame : ∀ x, x ≠ i → f' x = f x)
    (hi : inflightEpoch (f' i) = inflightEpoch (f i)) :
    ∀ e sl, inflightCount slotOf f' e sl = inflightCount slotOf f e sl := by
  intro e sl
  unfold inflightCount
  have hset : (Finset.univ.filter fun x => inflightEpoch (f' x) = some e ∧ slotOf x = sl)
      = Finset.univ.filter fun x => inflightEpoch (f x) = some e ∧ slotOf x = sl :=
    Finset.filter_congr (fun x _ => by
      rcases eq_or_ne x i with rfl | hx
      · rw [hi]
      · rw [hsame x hx])
  rw [hset]

lemma inflightCount_enter {R n : ℕ} (slotOf : Fin R → Fin n) (f f' : Fin R → RPc)
    (i : Fin R) (e0 : Bool) (hsame : ∀ x, x ≠ i → f' x = f x)
    (hold : inflightEpoch (f i) = none) (hnew : inflightEpoch (f' i) = some e0) :
    ∀ e sl, inflightCount slotOf f' e sl =
      inflightCount slotOf f e sl + (if e = e0 ∧ sl = slotOf i then 1 else 0) := by
  intro e sl
  unfold inflightCount
  rw [card_shift (fun x => inflightEpoch (f x) = some e ∧ slotOf x = sl)
      (fun x => inflightEpoch (f' x) = some e ∧ slotOf x = sl) i
      (fun x hx => by simp only [hsame x hx])]
  rw [hold, hnew]
  have hiff : ((some e0 = some (α := Bool) e) ∧ slotOf i = sl) ↔ (e = e0 ∧ sl = slotOf i) := by
    simp [eq_comm]
  rw [if_congr hiff rfl rfl]
  simp

lemma inflightCount_exit {R n : ℕ} (slotOf : Fin R → Fin n) (f f' : Fin R → RPc)
    (i : Fin R) (e0 : Bool) (hsame : ∀ x, x ≠ i → f' x = f x)
    (hold : inflightEpoch (f i) = some e0) (hnew : inflightEpoch (f' i) = none) :
    ∀ e sl, inflightCount slotOf f' e sl =
      inflightCount slotOf f e sl - (if e = e0 ∧ sl = slotOf i then 1 else 0) := by
  intro e sl
  unfold inflightCount
  rw [card_shift (fun x => inflightEpoch (f x) = some e ∧ slotOf x = sl)
      (fun x => inflightEpoch (f' x) = some e ∧ slotOf x = sl) i
      (fun x hx => by simp only [hsame x hx])]
  rw [hold, hnew]
  have hiff : ((some e0 = some (α := Bool) e) ∧ slotOf i = sl) ↔ (e = e0 ∧ sl = slotOf i) := by
    simp [eq_comm]
  rw [if_congr hiff rfl rfl]
  simp

/-- A zero counter slot certifies that no in-flight reader maps to it. -/
lemma no_inflight_of_count_zero {R n : ℕ} (slotOf : Fin R → Fin n) (f : Fin R → RPc)
    (e : Bool) (sl : Fin n) (hz : inflightCount slotOf f e sl = 0)
    (i : Fin R) (he : inflightEpoch (f i) = some e) (hsl : slotOf i = sl) : False := by
  unfold inflightCount at hz
  have hcard : (Finset.univ.filter
      fun x => inflightEpoch (f x) = some e ∧ slotOf x = sl).card = 0 := by
    exact_mod_cast hz
  rw [Finset.card_eq_zero] at hcard
  have : i ∈ (Finset.univ.filter
      fun x => inflightEpoch (f x) = some e ∧ slotOf x = sl) :=
    Finset.mem_filter.mpr ⟨Finset.mem_univ i, he, hsl⟩
  rw [hcard] at this
  exact absurd this (Finset.not_mem_empty i)

@[simp] lemma setReader_lr {R n : ℕ} (c : LRConfig R n) (i : Fin R) (p : RPc) :
    (setReader c i p).lr = c.lr := rfl

@[simp] lemma setReader_vi {R n : ℕ} (c : LRConfig R n) (i : Fin R) (p : RPc) :
    (setReader c i p).vi = c.vi := rfl

@[simp] lemma setReader_writer {R n : ℕ} (c : LRConfig R n) (i : Fin R) (p : RPc) :
    (setReader c i p).writer = c.writer := rfl

@[simp] lemma setReader_counters {R n : ℕ} (c : LRConfig R n) (i : Fin R) (p : RPc) :
    (setReader c i p).counters = c.counters := rfl

@[simp] lemma setReader_readers {R n : ℕ} (c : LRConfig R n) (i : Fin R) (p : RPc) :
    (setReader c i p).readers = Function.update c.readers i p := rfl

/-- Readers that keep the same number of `atLoadedLr` facts preserve `ReaderInv` when
the writer and the selector do not move. -/
lemma ReaderInv_mono {R n : ℕ} (slotOf : Fin R → Fin n) (c c' : LRConfig R n)
    (hwr : c'.writer = c.writer) (hlr : c'.lr = c.lr)
    (hsub : ∀ i e m, c'.readers i = RPc.atLoadedLr e m → c.readers i = RPc.atLoadedLr e m)
    (hrd : ReaderInv slotOf c) : ReaderInv slotOf c' := by
  unfold ReaderInv at hrd ⊢
  rw [hwr, hlr]
  cases hwpc : c.writer with
  | idle =>
    rw [hwpc] at hrd
    exact fun i e m h => hrd i e m (hsub i e m h)
  | atMut1 wlr =>
    rw [hwpc] at hrd
    exact fun i e m h => hrd i e m (hsub i e m h)
  | atFlip wlr =>
    rw [hwpc] at hrd
    exact fun i e m h => hrd i e m (hsub i e m h)
  | atLoadVi wlr => trivial
  | atScan1 wlr lv j =>
    rw [hwpc] at hrd
    exact fun i e h he => hrd i e (hsub i e wlr h) he
  | atToggle wlr lv =>
    rw [hwpc] at hrd
    exact fun i e h => hrd i e (hsub i e wlr h)
  | atScan2 wlr lv j =>
    rw [hwpc] at hrd
    exact fun i e h => hrd i e (hsub i e wlr h)
  | atMut2 wlr lv =>
    rw [hwpc] at hrd
    exact fun i e h => hrd i e (hsub i e wlr h)

/-- A reader-pc update whose new pc is not `atLoadedLr` removes no obligations. -/
lemma update_sub {R : ℕ} (f : Fin R → RPc) (i : Fin R) (p : RPc)
    (hp : ∀ e m, p ≠ RPc.atLoadedLr e m) :
    ∀ i' e m, Function.update f i p i' = RPc.atLoadedLr e m → f i' = RPc.atLoadedLr e m := by
  intro i' e m h
  rcases eq_or_ne i' i with rfl | hne
  · rw [Function.update_same] at h
    exact absurd h (hp e m)
  · rwa [Function.update_noteq hne] at h

/-- One interleaved step preserves the Left-Right invariant. -/
lemma LRInv_step {R n : ℕ} (slotOf : Fin R → Fin n) {c c' : LRConfig R n}
    (hinv : LRInv slotOf c) (hstep : LRStep slotOf c c') : LRInv slotOf c' := by
  obtain ⟨hw, hcnt, hrd⟩ := hinv
  cases hstep with
  | rLoadVi i hi =>
    refine ⟨hw, ?_, ?_⟩
    · intro e sl
      have hcong := inflightCount_congr slotOf c.readers
        (Function.update c.readers i (RPc.atLoadedVi c.vi)) i
        (fun x hx => Function.update_noteq hx _ _)
        (by rw [Function.update_same, hi]; rfl)
      simp only [setReader_counters, setReader_readers]
      rw [hcong e sl]
      exact hcnt e sl
    · exact ReaderInv_mono slotOf c _ rfl rfl
        (update_sub c.readers i _ (fun e m => by simp)) hrd
  | rArrive i e hi =>
    refine ⟨hw, ?_, ?_⟩
    · intro e' sl
      have henter := inflightCount_enter slotOf c.readers
        (Function.update c.readers i (RPc.atArrived e)) i e
        (fun x hx => Function.update_noteq hx _ _)
        (by rw [hi]; rfl) (by rw [Function.update_same]; rfl)
      show bump c.counters e (slotOf i) 1 e' sl =
        inflightCount slotOf (Function.update c.readers i (RPc.atArrived e)) e' sl
      rw [henter e' sl, ← hcnt e' sl]
      by_cases hcond : e' = e ∧ sl = slotOf i <;> simp [bump, hcond]
    · exact ReaderInv_mono slotOf c _ rfl rfl
        (update_sub c.readers i _ (fun e' m => by simp)) hrd
  | rLoadLr i e hi =>
    refine ⟨hw, ?_, ?_⟩
    · intro e' sl
      have hcong := inflightCount_congr slotOf c.readers
        (Function.update c.readers i (RPc.atLoadedLr e c.lr)) i
        (fun x hx => Function.update_noteq hx _ _)
        (by rw [Function.update_same, hi]; rfl)
      simp only [setReader_counters, setReader_readers]
      rw [hcong e' sl]
      exact hcnt e' sl
    · unfold ReaderInv
      simp only [setReader_writer, setReader_lr, setReader_readers]
      cases hwpc : c.writer with
      | idle =>
        simp only [ReaderInv, hwpc] at hrd
        intro i' e' m' h
        rcases eq_or_ne i' i with rfl | hne
        · rw [Function.update_same] at h
          injection h with h1 h2
          exact h2.symm
        · rw [Function.update_noteq hne] at h
          exact hrd i' e' m' h
      | atMut1 wlr =>
        simp only [ReaderInv, hwpc] at hrd
        intro i' e' m' h
        rcases eq_or_ne i' i with rfl | hne
        · rw [Function.update_same] at h
          injection h with h1 h2
          exact h2.symm
        · rw [Function.update_noteq hne] at h
          exact hrd i' e' m' h
      | atFlip wlr =>
        simp only [ReaderInv, hwpc] at hrd
        intro i' e' m' h
        rcases eq_or_ne i' i with rfl | hne
        · rw [Function.update_same] at h
          injection h with h1 h2
          exact h2.symm
        · rw [Function.update_noteq hne] at h
          exact hrd i' e' m' h
      | atLoadVi wlr => trivial
      | atScan1 wlr lv j =>
        simp only [WriterInv, hwpc] at hw
        simp only [ReaderInv, hwpc] at hrd
        intro i' e' h he'
        rcases eq_or_ne i' i with rfl | hne
        · rw [Function.update_same] at h
          injection h with h1 h2
          exact absurd (h2 ▸ hw.1) (by simp)
        · rw [Function.update_noteq hne] at h
          exact hrd i' e' h he'
      | atToggle wlr lv =>
        simp only [WriterInv, hwpc] at hw
        simp only [ReaderInv, hwpc] at hrd
        intro i' e' h
        rcases eq_or_ne i' i with rfl | hne
        · rw [Function.update_same] at h
          injection h with h1 h2
          exact absurd (h2 ▸ hw.1) (by simp)
        · rw [Function.update_noteq hne] at h
          exact hrd i' e' h
      | atScan2 wlr lv j =>
        simp only [WriterInv, hwpc] at hw
        simp only [ReaderInv, hwpc] at hrd
        intro i' e' h
        rcases eq_or_ne i' i with rfl | hne
        · rw [Function.update_same] at h
          injection h with h1 h2
          exact absurd (h2 ▸ hw.1) (by simp)
        · rw [Function.update_noteq hne] at h
          exact hrd i' e' h
      | atMut2 wlr lv =>
        simp only [WriterInv, hwpc] at hw
        simp only [ReaderInv, hwpc] at hrd
        intro i' e' h
        rcases eq_or_ne i' i with rfl | hne
        · rw [Function.update_same] at h
          injection h with h1 h2
          exact absurd (h2 ▸ hw.1) (by simp)
        · rw [Function.update_noteq hne] at h
          exact hrd i' e' h
  | rRead i e m hi =>
    refine ⟨hw, ?_, ?_⟩
    · intro e' sl
      have hcong := inflightCount_congr slotOf c.readers
        (Function.update c.readers i (RPc.atRead e m)) i
        (fun x hx => Function.update_noteq hx _ _)
        (by rw [Function.update_same, hi]; rfl)
      simp only [setReader_counters, setReader_readers]
      rw [hcong e' sl]
      exact hcnt e' sl
    · exact ReaderInv_mono slotOf c _ rfl rfl
        (update_sub c.readers i _ (fun e' m' => by simp)) hrd
  | rDepart i e m hi =>
    refine ⟨hw, ?_, ?_⟩
    · intro e' sl
      have hexit := inflightCount_exit slotOf c.readers
        (Function.update c.readers i RPc.atStart) i e
        (fun x hx => Function.update_noteq hx _ _)
        (by rw [hi]; rfl) (by rw [Function.update_same]; rfl)
      show bump c.counters e (slotOf i) (-1) e' sl =
        inflightCount slotOf (Function.update c.readers i RPc.atStart) e' sl
      rw [hexit e' sl, ← hcnt e' sl]
      by_cases hcond : e' = e ∧ sl = slotOf i <;> simp [bump, hcond, sub_eq_add_neg]
    · exact ReaderInv_mono slotOf c _ rfl rfl
        (update_sub c.readers i _ (fun e' m' => by simp)) hrd
  | wBegin hwr =>
    refine ⟨rfl, hcnt, ?_⟩
    simp only [ReaderInv, hwr] at hrd
    exact hrd
  | wMut1Fail wlr hwr =>
    refine ⟨trivial, hcnt, ?_⟩
    simp only [ReaderInv, hwr] at hrd
    exact hrd
  | wMut1Ok wlr hwr =>
    simp only [WriterInv, hwr] at hw
    simp only [ReaderInv, hwr] at hrd
    exact ⟨hw, hcnt, hrd⟩
  | wFlip wlr hwr =>
    exact ⟨rfl, hcnt, trivial⟩
  | wLoadVi wlr hwr =>
    simp only [WriterInv, hwr] at hw
    exact ⟨⟨hw, rfl⟩, hcnt, fun i e h he => Nat.zero_le _⟩
  | wScan1Hit wlr lv j hj hwr hnz =>
    simp only [WriterInv, hwr] at hw
    exact ⟨hw, hcnt, fun i e h he => Nat.zero_le _⟩
  | wScan1Zero wlr lv j hj hwr hz =>
    simp only [WriterInv, hwr] at hw
    simp only [ReaderInv, hwr] at hrd
    refine ⟨hw, hcnt, ?_⟩
    intro i e h he
    have hj' := hrd i e h he
    have hne : (slotOf i : ℕ) ≠ j := by
      intro hsl
      have hslot : slotOf i = ⟨j, hj⟩ := Fin.ext hsl
      have hzc : inflightCount slotOf c.readers (!lv) ⟨j, hj⟩ = 0 := by
        rw [← hcnt]; exact hz
      exact no_inflight_of_count_zero slotOf c.readers (!lv) ⟨j, hj⟩ hzc i
        (by rw [h, ← he]; rfl) hslot
    omega
  | wScan1Done wlr lv hwr =>
    simp only [WriterInv, hwr] at hw
    simp only [ReaderInv, hwr] at hrd
    refine ⟨hw, hcnt, ?_⟩
    intro i e h
    by_cases he : e = !lv
    · exact absurd (hrd i e h he) (by have := (slotOf i).isLt; omega)
    · cases e <;> cases lv <;> simp_all
  | wToggle wlr lv hwr =>
    simp only [WriterInv, hwr] at hw
    simp only [ReaderInv, hwr] at hrd
    exact ⟨⟨hw.1, rfl⟩, hcnt, fun i e h => ⟨hrd i e h, Nat.zero_le _⟩⟩
  | wScan2Hit wlr lv j hj hwr hnz =>
    simp only [WriterInv, hwr] at hw
    simp only [ReaderInv, hwr] at hrd
    exact ⟨hw, hcnt, fun i e h => ⟨(hrd i e h).1, Nat.zero_le _⟩⟩
  | wScan2Zero wlr lv j hj hwr hz =>
    simp only [WriterInv, hwr] at hw
    simp only [ReaderInv, hwr] at hrd
    refine ⟨hw, hcnt, ?_⟩
    intro i e h
    obtain ⟨he, hj'⟩ := hrd i e h
    refine ⟨he, ?_⟩
    have hne : (slotOf i : ℕ) ≠ j := by
      intro hsl
      have hslot : slotOf i = ⟨j, hj⟩ := Fin.ext hsl
      have hzc : inflightCount slotOf c.readers lv ⟨j, hj⟩ = 0 := by
        rw [← hcnt]; exact hz
      exact no_inflight_of_count_zero slotOf c.readers lv ⟨j, hj⟩ hzc i
        (by rw [h, ← he]; rfl) hslot
    omega
  | wScan2Done wlr lv hwr =>
    simp only [WriterInv, hwr] at hw
    simp only [ReaderInv, hwr] at hrd
    refine ⟨hw, hcnt, ?_⟩
    intro i e h
    obtain ⟨he, hn⟩ := hrd i e h
    have := (slotOf i).isLt
    omega
  | wMut2 wlr lv hwr =>
    simp only [WriterInv, hwr] at hw
    simp only [ReaderInv, hwr] at hrd
    refine ⟨trivial, hcnt, ?_⟩
    intro i e m h
    by_cases hm : m = wlr
    · exact absurd (hm ▸ h) (hrd i e)
    · have hmw : m = !wlr := by cases m <;> cases wlr <;> simp_all
      rw [hmw, hw.1]

lemma LRInv_init {R n : ℕ} (slotOf : Fin R → Fin n) : LRInv slotOf (LRInit R n) := by
  refine ⟨trivial, ?_, ?_⟩
  · intro e sl
    show (0 : ℤ) = inflightCount slotOf (fun _ => RPc.atStart) e sl
    unfold inflightCount
    simp [inflightEpoch]
  · intro i e m h
    simp [LRInit] at h

lemma LRInv_reach {R n : ℕ} (slotOf : Fin R → Fin n) (c : LRConfig R n)
    (h : LRReach slotOf c) : LRInv slotOf c := by
  induction h with
  | init => exact LRInv_init slotOf
  | step c c' hr hs ih => exact LRInv_step slotOf ih hs

/-- C2: in every reachable configuration of the interleaved model, at the moment the
writer is poised to perform a mirror mutation — the first mutation, on the mirror not
named by the selector (`!wlr`), or the second mutation after the drain, on the mirror
that was active before the flip (`wlr`) — no reader stands between its selector load
and its mirror read with that mirror as target.  The drain scans certified this via the
counters (`CounterInv`/`ReaderInv`), so no reader ever observes a mirror while the
writer mutates it: every read sees a complete pre- or post-mutation mirror. -/
theorem c2_no_mutation_while_consulted {R n : ℕ} (slotOf : Fin R → Fin n)
    (c : LRConfig R n) (h : LRReach slotOf c) : MutationSafe c := by
  obtain ⟨hw, hcnt, hrd⟩ := LRInv_reach slotOf c h
  constructor
  · intro wlr hwr i e hcontra
    simp only [WriterInv, hwr] at hw
    simp only [ReaderInv, hwr] at hrd
    have hm := hrd i e (!wlr) hcontra
    rw [← hw] at hm
    exact absurd hm (by simp)
  · intro wlr lv hwr i e hcontra
    simp only [ReaderInv, hwr] at hrd
    exact hrd i e hcontra

theorem c2_no_mutation_while_consulted_witness :
    LRReach (fun _ : Fin 1 => (0 : Fin 1)) (LRInit 1 1) ∧
    MutationSafe (LRInit 1 1) :=
  ⟨LRReach.init, c2_no_mutation_while_consulted (fun _ : Fin 1 => (0 : Fin 1)) _
    LRReach.init⟩
